import Mathlib

/-!
Verification development for the NeuroChess MCTS engine and self-play loop.

Shallow embedding conventions:
* Chess moves are records of from-square, to-square (0..63, a1 = 0) and an
  optional promotion piece, using the python-chess piece constants
  (KNIGHT = 2, BISHOP = 3, ROOK = 4, QUEEN = 5).
* The rules engine (python-chess) and the neural evaluator are external
  collaborators of the code under test; they are modelled as parameters
  (function records), and concrete instances used in theorems are modelled
  from the spec.
* numpy float arithmetic is modelled over the rationals; numpy arrays of
  length 4096 are modelled as functions from the index to the rationals,
  with in-place writes rendered as Function.update.
-/

/-- A chess move as used by the engine: from-square and to-square in 0..63
(a1 = 0, h8 = 63) and an optional promotion piece constant. -/
structure Move where
  from_square : Nat
  to_square : Nat
  promotion : Option Nat
deriving DecidableEq, Repr

/-- Embedding of utils.move_to_index: from_square * 64 + to_square.  The
source also receives the board, but never reads it, so the parameter is
dropped here. -/
def move_to_index (m : Move) : Nat :=
  m.from_square * 64 + m.to_square

/-- python-chess piece constants tried by the decoder, in source order:
QUEEN, ROOK, BISHOP, KNIGHT. -/
def promo_candidates : List Nat := [5, 4, 3, 2]

/-- The promotion-disambiguation loop of utils.index_to_move: try each
candidate promotion piece in order and return the first move that is legal
on the board.  Board legality (python-chess board.legal_moves) is modelled
as the list of legal moves. -/
def first_legal_promo (f t : Nat) (legal : List Move) : List Nat → Option Move
  | [] => none
  | p :: rest =>
    if Move.mk f t (some p) ∈ legal then some (Move.mk f t (some p))
    else first_legal_promo f t legal rest

/-- Embedding of utils.index_to_move: decode from/to squares, first try the
bare move, then each promotion piece, returning none when nothing is
legal. -/
def index_to_move (index : Nat) (legal : List Move) : Option Move :=
  let from_square := index / 64
  let to_square := index % 64
  if Move.mk from_square to_square none ∈ legal then
    some (Move.mk from_square to_square none)
  else first_legal_promo from_square to_square legal promo_candidates

/-- Embedding of utils.create_move_mask: an all-zero length-4096 vector with
a one written at the index of every legal move. -/
def create_move_mask (legal : List Move) : Nat → ℚ :=
  legal.foldl (fun mask m => Function.update mask (move_to_index m) 1) (fun _ => 0)

/-- Sum of a length-4096 vector (numpy ndarray.sum over the action space). -/
def vsum (f : Nat → ℚ) : ℚ :=
  ∑ i in Finset.range 4096, f i

/-- Rational power modelling the numpy float power for the exponents that
actually arise in this development: the exponent 1/temperature is a
nonnegative integer whenever temperature = 1/n; other exponents are mapped
to the junk value 0 and are never relied upon in any theorem. -/
def qpow (x : ℚ) (e : ℚ) : ℚ :=
  if e.den = 1 ∧ 0 ≤ e.num then x ^ e.num.toNat else 0

/-- Embedding of utils.apply_temperature: identity at temperature 1,
otherwise raise each entry to the power 1/temperature and renormalize with
the 1e-8 denominator guard. -/
def apply_temperature (policy : Nat → ℚ) (temperature : ℚ) : Nat → ℚ :=
  if temperature = 1 then policy
  else
    let p := fun i => qpow (policy i) (1 / temperature)
    fun i => p i / (vsum p + 1 / 100000000)

/-- The mutable statistics of one tree node touched by backpropagation. -/
structure NodeStats where
  visit_count : Nat
  value_sum : ℚ
deriving DecidableEq, Repr

/-- Embedding of MCTSNode.backpropagate.  The Python method walks the
parent chain mutating each node; here the chain from the updated node up to
the root is an explicit list (node first, root last), and the recursion
flips the sign of the value at every step exactly as the source does. -/
def backpropagate : List NodeStats → ℚ → List NodeStats
  | [], _ => []
  | n :: rest, value =>
    NodeStats.mk (n.visit_count + 1) (n.value_sum + value) :: backpropagate rest (-value)

/-- Modelled from the spec: the rules-engine collaborator of section 6
(python-chess, external to the core).  Positions are identified by natural
numbers; applyMove returns the position after one legal move. -/
structure GameRules where
  legalMoves : Nat → List Move
  applyMove : Nat → Move → Nat
  isGameOver : Nat → Bool
  getResult : Nat → Option ℚ

/-- A node of the Monte Carlo tree (mcts.MCTSNode): position, visit count,
value sum, prior, and the children keyed by their incoming move in
insertion order.  The parent back-reference of the source is implicit in
the tree shape. -/
inductive MCTSNode : Type where
  | mk : Nat → Nat → ℚ → ℚ → List (Move × MCTSNode) → MCTSNode

/-- The position id owned by the node. -/
def MCTSNode.posId : MCTSNode → Nat
  | .mk p _ _ _ _ => p

/-- The visit count of the node. -/
def MCTSNode.visit_count : MCTSNode → Nat
  | .mk _ v _ _ _ => v

/-- The accumulated value sum of the node. -/
def MCTSNode.value_sum : MCTSNode → ℚ
  | .mk _ _ s _ _ => s

/-- The prior probability assigned at creation. -/
def MCTSNode.prior : MCTSNode → ℚ
  | .mk _ _ _ p _ => p

/-- The children of the node, keyed by move, in insertion order. -/
def MCTSNode.children : MCTSNode → List (Move × MCTSNode)
  | .mk _ _ _ _ c => c

/-- Embedding of MCTSNode.is_expanded: the children dict is nonempty. -/
def MCTSNode.is_expanded (t : MCTSNode) : Bool :=
  decide (0 < t.children.length)

/-- Embedding of MCTSNode.get_value: mean value, 0 before any visit. -/
def MCTSNode.getValue (t : MCTSNode) : ℚ :=
  if t.visit_count = 0 then 0 else t.value_sum / (t.visit_count : ℚ)

/-- The PUCT score computed inside MCTSNode.select_child for one child:
Q + c_puct * P * sqrt(N_parent) / (1 + N_child).  The square-root function
of the host math library is abstracted as the parameter sqrtQ; no theorem
below depends on its values. -/
def puct_score (c_puct : ℚ) (sqrtQ : Nat → ℚ) (parentVisit : Nat) (c : MCTSNode) : ℚ :=
  c.getValue + c_puct * c.prior * sqrtQ parentVisit / (1 + (c.visit_count : ℚ))

/-- The argmax loop of MCTSNode.select_child, returning the index of the
selected child: best score starts at minus infinity (modelled by the none
accumulator, which every finite score beats), ties keep the first
encountered child. -/
def select_aux (f : MCTSNode → ℚ) : List (Move × MCTSNode) → Nat → Nat → Option ℚ → Nat
  | [], _, bestIdx, _ => bestIdx
  | mc :: rest, i, bestIdx, best =>
    let s := f mc.2
    match best with
    | none => select_aux f rest (i + 1) i (some s)
    | some b =>
      if b < s then select_aux f rest (i + 1) i (some s)
      else select_aux f rest (i + 1) bestIdx (some b)

/-- Embedding of MCTSNode.select_child (as the index of the chosen child in
the children list). -/
def select_child_idx (c_puct : ℚ) (sqrtQ : Nat → ℚ) (t : MCTSNode) : Nat :=
  select_aux (puct_score c_puct sqrtQ t.visit_count) t.children 0 0 none

/-- Embedding of MCTSNode.expand: for every legal move build a child whose
prior is the policy mass at the move index, masked and renormalized over
the legal moves, with a uniform fallback when the mass total is not
positive.  Each child owns the position obtained by applying its move
(game.copy() followed by make_move in the source). -/
def expandNode (rules : GameRules) (policy : Nat → ℚ) (t : MCTSNode) : MCTSNode :=
  let legal := rules.legalMoves t.posId
  let mask := create_move_mask legal
  let legal_policy := legal.map (fun m => policy (move_to_index m) * mask (move_to_index m))
  let total := legal_policy.sum
  let probs :=
    if 0 < total then legal_policy.map (fun x => x / total)
    else legal.map (fun _ => 1 / (legal.length : ℚ))
  MCTSNode.mk t.posId t.visit_count t.value_sum t.prior
    ((legal.zip probs).map (fun mp =>
      (mp.1, MCTSNode.mk (rules.applyMove t.posId mp.1) 0 0 mp.2 [])))

/-- One simulation of the MCTS.search loop: descend with select_child while
the node is expanded and not terminal, evaluate the reached node (game
result at terminal nodes, evaluator value plus expansion elsewhere), then
backpropagate with the sign alternating at every level.  The returned
rational is the value the node itself accumulated; the caller adds its
negation, exactly as MCTSNode.backpropagate does along the parent chain.
The fuel argument only bounds the descent depth so that the recursion is
structural; search passes a fuel larger than any reachable tree height, so
the fuel-exhaustion branch (which returns the tree unchanged) is never
taken on the runs considered here. -/
def simulate (rules : GameRules) (evaluate : Nat → (Nat → ℚ) × ℚ) (c_puct : ℚ)
    (sqrtQ : Nat → ℚ) : Nat → MCTSNode → MCTSNode × ℚ
  | 0, t => (t, 0)
  | fuel + 1, t =>
    if t.is_expanded && !(rules.isGameOver t.posId) then
      let i := select_child_idx c_puct sqrtQ t
      match t.children[i]? with
      | some mc =>
        let r := simulate rules evaluate c_puct sqrtQ fuel mc.2
        (MCTSNode.mk t.posId (t.visit_count + 1) (t.value_sum + -r.2) t.prior
          (t.children.set i (mc.1, r.1)), -r.2)
      | none => (t, 0)
    else
      let value :=
        if rules.isGameOver t.posId then (rules.getResult t.posId).getD 0
        else (evaluate t.posId).2
      let t1 :=
        if rules.isGameOver t.posId then t
        else expandNode rules (evaluate t.posId).1 t
      (MCTSNode.mk t1.posId (t1.visit_count + 1) (t1.value_sum + value) t1.prior t1.children,
        value)

/-- The simulation loop of MCTS.search: num_simulations successive
simulations starting from the expanded root. -/
def run_simulations (rules : GameRules) (evaluate : Nat → (Nat → ℚ) × ℚ) (c_puct : ℚ)
    (sqrtQ : Nat → ℚ) (fuel : Nat) : Nat → MCTSNode → MCTSNode
  | 0, t => t
  | n + 1, t =>
    run_simulations rules evaluate c_puct sqrtQ fuel n
      (simulate rules evaluate c_puct sqrtQ fuel t).1

/-- config.MCTS_CONFIG dirichlet_epsilon. -/
def dirichlet_epsilon : ℚ := 1 / 4

/-- Embedding of MCTS.search.  External collaborators are parameters: the
rules engine, the evaluator (model.predict composed with board_to_tensor),
the sampled Dirichlet noise vector for the root legal moves, and the
square-root function.  num_simulations, c_puct and temperature are the
constructor configuration (config.MCTS_CONFIG defaults 100, 1, 1).  The
returned triple also exposes the final root node, which the Python code
builds and discards, so that internal search effort is observable; the
first two components are the (best move, normalized visit-count policy
target) pair returned by the source. -/
def MCTS.search (rules : GameRules) (evaluate : Nat → (Nat → ℚ) × ℚ) (noise : List ℚ)
    (sqrtQ : Nat → ℚ) (num_simulations : Nat) (c_puct temperature : ℚ) (pos : Nat) :
    Option Move × (Nat → ℚ) × MCTSNode :=
  let root := MCTSNode.mk pos 0 0 0 []
  let pv := evaluate pos
  let legal := rules.legalMoves pos
  let policy :=
    if 0 < legal.length then
      let mask := create_move_mask legal
      let blended := (legal.zip noise).foldl
        (fun p mn =>
          let idx := move_to_index mn.1
          Function.update p idx
            (((1 - dirichlet_epsilon) * p idx + dirichlet_epsilon * mn.2) * mask idx))
        pv.1
      fun i => blended i / (vsum blended + 1 / 100000000)
    else pv.1
  let root1 := expandNode rules policy root
  let rootN := run_simulations rules evaluate c_puct sqrtQ (num_simulations + 2)
    num_simulations root1
  let visit_counts := rootN.children.foldl
    (fun vc mc => Function.update vc (move_to_index mc.1) ((mc.2.visit_count : ℚ)))
    (fun _ => 0)
  let total_visits := vsum visit_counts
  let visit_counts2 :=
    if 0 < total_visits then fun i => visit_counts i / total_visits
    else legal.foldl
      (fun vc m => Function.update vc (move_to_index m) (1 / (legal.length : ℚ)))
      visit_counts
  let visit_counts3 := apply_temperature visit_counts2 temperature
  if legal.length = 0 then (none, visit_counts3, rootN)
  else
    let best := legal.foldl
      (fun acc m =>
        if acc.2 < visit_counts3 (move_to_index m) then
          (some m, visit_counts3 (move_to_index m))
        else acc)
      ((none : Option Move), (-1 : ℚ))
    (best.1, visit_counts3, rootN)

/-- Modelled from the spec: the python-chess Board capability consumed by
game.ChessGame (an external collaborator).  Boards are identified by
natural numbers; turn is true for White (the python-chess convention
chess.WHITE = True, chess.BLACK = False); result is the result string of a
board ("1-0", "0-1", "1/2-1/2", or "*" while the game is running). -/
structure BoardAPI where
  legal_moves : Nat → List Move
  push : Nat → Move → Nat
  is_game_over : Nat → Bool
  result : Nat → String
  turn : Nat → Bool

/-- Embedding of game.ChessGame state: the wrapped board and the move
history list. -/
structure ChessGame where
  board : Nat
  move_history : List Move
deriving Repr

/-- Embedding of ChessGame.make_move: push the move and record it when it
is legal, returning whether it was made together with the updated game. -/
def make_move (api : BoardAPI) (g : ChessGame) (m : Move) : Bool × ChessGame :=
  if m ∈ api.legal_moves g.board then
    (true, ChessGame.mk (api.push g.board m) (g.move_history ++ [m]))
  else (false, g)

/-- Embedding of ChessGame.get_result: none while the game is running; for
"1-0" return 1 when it is Black to move and -1 otherwise; for "0-1" return
1 when it is White to move and -1 otherwise; 0 for every other (drawn)
result string. -/
def get_result (api : BoardAPI) (g : ChessGame) : Option ℚ :=
  if api.is_game_over g.board = false then none
  else if api.result g.board = "1-0" then
    some (if api.turn g.board = false then 1 else -1)
  else if api.result g.board = "0-1" then
    some (if api.turn g.board = true then 1 else -1)
  else some 0

/-- The side named as winner by a decisive result string (true = White),
none for non-decisive strings. -/
def winnerOf (s : String) : Option Bool :=
  if s = "1-0" then some true else if s = "0-1" then some false else none

/-- The game loop of SelfPlay.play_game: while the game is not over and
fewer than max_moves plies were played, ask the searcher for a move and a
policy, stop when it returns none, otherwise record (encoded position,
policy) before playing the move.  The searcher (mcts.search composed with
the game state) is the searchFn parameter; the encoded position
(board_to_tensor) is modelled by the board id.  The fuel counts the
remaining plies up to max_moves. -/
def playLoop (api : BoardAPI) (searchFn : Nat → Option Move × (Nat → ℚ)) :
    Nat → ChessGame → List (Nat × (Nat → ℚ)) → List (Nat × (Nat → ℚ)) × ChessGame
  | 0, g, acc => (acc, g)
  | fuel + 1, g, acc =>
    if api.is_game_over g.board then (acc, g)
    else
      match searchFn g.board with
      | (none, _) => (acc, g)
      | (some mv, pol) =>
        playLoop api searchFn fuel (make_move api g mv).2 (acc ++ [(g.board, pol)])

/-- Embedding of SelfPlay.play_game: run the game loop from the initial
game, read the terminal result (0 when the game is not over), and label
every recorded pair with the result on even ply indices and its negation
on odd ply indices. -/
def play_game (api : BoardAPI) (searchFn : Nat → Option Move × (Nat → ℚ))
    (max_moves : Nat) (g0 : ChessGame) : List (Nat × (Nat → ℚ) × ℚ) :=
  let r := playLoop api searchFn max_moves g0 []
  let result := (get_result api r.2).getD 0
  r.1.enum.map (fun ir => (ir.2.1, ir.2.2, if ir.1 % 2 = 0 then result else -result))

/-- Modelled from the spec: the terminal result from the result rule of the
position, expressed as 1, -1 or 0 for the player to move at termination --
the game value from the perspective of the side to move, given the winner
of a decisive result (none for a draw). -/
def specToMoveResult (winner : Option Bool) (turn : Bool) : ℚ :=
  match winner with
  | some w => if w = turn then 1 else -1
  | none => 0

/-- The queen promotion g7g8=Q (g7 = 54, g8 = 62). -/
def promoQ : Move := Move.mk 54 62 (some 5)

/-- The rook promotion g7g8=R. -/
def promoR : Move := Move.mk 54 62 (some 4)

/-- The bishop promotion g7g8=B. -/
def promoB : Move := Move.mk 54 62 (some 3)

/-- The knight promotion g7g8=N. -/
def promoN : Move := Move.mk 54 62 (some 2)

/-- Modelled from the spec: the legal moves produced by the rules engine in
the position with White king a1 and pawn g7 against Black king h7 and
rooks b8 and h2, White to move (FEN 1r6/6Pk/8/8/8/8/7r/K7 w).  The white
king is boxed in (a2 and b2 are covered by the rook on h2, b1 and b2 by
the rook on b8), so the only legal moves are the four promotions of the
g-pawn, which python-chess generates in the order queen, rook, bishop,
knight.  All four share the action index 54 * 64 + 62 = 3518. -/
def promoPosLegal : List Move := [promoQ, promoR, promoB, promoN]

/-- Modelled from the spec: the rules-engine collaborator restricted to the
positions reachable in one search from the promotion position above.
Position 0 is the root (four legal promotions); positions 1 to 4 follow the
queen, rook, bishop and knight promotions; position 1 (after g7g8=Q, Black
in check from the new queen) has the two legal replies Kxg8 (55 to 62) and
Kh6 (55 to 47); positions 5 and 6 follow those replies.  None of these
positions is terminal. -/
def promoRules : GameRules where
  legalMoves := fun p =>
    if p = 0 then promoPosLegal
    else if p = 1 then [Move.mk 55 62 none, Move.mk 55 47 none]
    else []
  applyMove := fun p m =>
    if p = 0 then
      (if m = promoQ then 1 else if m = promoR then 2
       else if m = promoB then 3 else if m = promoN then 4 else 9)
    else if p = 1 then (if m = Move.mk 55 62 none then 5 else 6)
    else 9
  isGameOver := fun _ => false
  getResult := fun _ => none

/-- Modelled from the spec: the rules engine at the stalemate position with
Black king a8, White pawn a7 and White king c7, Black to move
(FEN k7/P1K5/8/8/8/8/8/8 b): no legal moves, game over, drawn result 0. -/
def staleRules : GameRules where
  legalMoves := fun _ => []
  applyMove := fun _ _ => 0
  isGameOver := fun _ => true
  getResult := fun _ => some 0

/-- A minimal rules instance with a single legal move a2a3 (8 to 16),
used to instantiate universally quantified theorems. -/
def uniRules : GameRules where
  legalMoves := fun _ => [Move.mk 8 16 none]
  applyMove := fun p _ => p + 1
  isGameOver := fun _ => false
  getResult := fun _ => none

/-- The constant evaluator: all-zero policy, value 0 (the degenerate
untrained network of the spec, section 8). -/
def zeroEval : Nat → (Nat → ℚ) × ℚ := fun _ => ((fun _ => 0), 0)

/-- Integer square root cast to the rationals, instantiating the abstract
square-root parameter; it agrees with the float math.sqrt on the perfect
squares 0 and 1, the only arguments reached in the concrete runs below. -/
def sqrtModel : Nat → ℚ := fun n => (Nat.sqrt n : ℚ)

/-- The scripted moves of the quickest decisive game used to test the
self-play labels: 1. e2e4 f7f6 2. d2d4 g7g5 3. Qd1h5 mate (squares e2 = 12,
e4 = 28, f7 = 53, f6 = 45, d2 = 11, d4 = 27, g7 = 54, g5 = 38, d1 = 3,
h5 = 39). -/
def mateScriptMove : Nat → Move
  | 0 => Move.mk 12 28 none
  | 1 => Move.mk 53 45 none
  | 2 => Move.mk 11 27 none
  | 3 => Move.mk 54 38 none
  | _ => Move.mk 3 39 none

/-- Modelled from the spec: the python-chess board collaborator along the
scripted mating game above.  Board i is the position after i plies of the
script; board 5 is the checkmate (White has won, Black to move, result
string 1-0).  The legal-move lists are abbreviated to the scripted move --
the wrapped code only ever tests membership of the move it actually plays,
and each scripted move is legal in the corresponding position. -/
def mateAPI : BoardAPI where
  legal_moves := fun b => if b < 5 then [mateScriptMove b] else []
  push := fun b _ => b + 1
  is_game_over := fun b => decide (b = 5)
  result := fun b => if b = 5 then "1-0" else "*"
  turn := fun b => decide (b % 2 = 0)

/-- The scripted searcher driving the self-play loop along the mating game:
it returns the scripted move with an all-zero policy vector, and none once
the game is over. -/
def mateSearch : Nat → Option Move × (Nat → ℚ) :=
  fun b => (if b < 5 then some (mateScriptMove b) else none, fun _ => 0)

/-- The two-entry policy vector 3/4, 1/4 used to exhibit the behaviour of
apply_temperature at small temperatures. -/
def sharpTarget : Nat → ℚ :=
  Function.update (Function.update (fun _ => 0) 0 (3 / 4)) 1 (1 / 4)

/-- The Dirichlet noise sample used in the concrete promotion-position run:
a uniform vector over the four legal moves. -/
def promoNoise : List ℚ := [1 / 4, 1 / 4, 1 / 4, 1 / 4]

/-- The expanded root tree of the concrete promotion-position run: four
children, one per promotion, with sibling priors a b c d. -/
def promoRoot1 (a b c d : ℚ) : MCTSNode :=
  MCTSNode.mk 0 0 0 0 [(promoQ, MCTSNode.mk 1 0 0 a []), (promoR, MCTSNode.mk 2 0 0 b []),
    (promoB, MCTSNode.mk 3 0 0 c []), (promoN, MCTSNode.mk 4 0 0 d [])]

/-- The queen-promotion child after its single evaluation and expansion:
one visit, value 0, two grandchildren with the uniform fallback priors. -/
def promoChild1 (a : ℚ) : MCTSNode :=
  MCTSNode.mk 1 1 0 a [(Move.mk 55 62 none, MCTSNode.mk 5 0 0 (1 / 2) []),
    (Move.mk 55 47 none, MCTSNode.mk 6 0 0 (1 / 2) [])]

/-- The root tree after the single simulation of the promotion run: only
the queen-promotion child has been visited. -/
def promoRootN (a b c d : ℚ) : MCTSNode :=
  MCTSNode.mk 0 1 0 0 [(promoQ, promoChild1 a), (promoR, MCTSNode.mk 2 0 0 b []),
    (promoB, MCTSNode.mk 3 0 0 c []), (promoN, MCTSNode.mk 4 0 0 d [])]

@[simp] theorem MCTSNode.posId_mk (p : Nat) (v : Nat) (s pr : ℚ)
    (c : List (Move × MCTSNode)) : (MCTSNode.mk p v s pr c).posId = p := rfl

@[simp] theorem MCTSNode.visit_count_mk (p : Nat) (v : Nat) (s pr : ℚ)
    (c : List (Move × MCTSNode)) : (MCTSNode.mk p v s pr c).visit_count = v := rfl

@[simp] theorem MCTSNode.value_sum_mk (p : Nat) (v : Nat) (s pr : ℚ)
    (c : List (Move × MCTSNode)) : (MCTSNode.mk p v s pr c).value_sum = s := rfl

@[simp] theorem MCTSNode.prior_mk (p : Nat) (v : Nat) (s pr : ℚ)
    (c : List (Move × MCTSNode)) : (MCTSNode.mk p v s pr c).prior = pr := rfl

@[simp] theorem MCTSNode.children_mk (p : Nat) (v : Nat) (s pr : ℚ)
    (c : List (Move × MCTSNode)) : (MCTSNode.mk p v s pr c).children = c := rfl

/-! ### Vector-sum and update-fold lemmas -/

theorem vsum_zero : vsum (fun _ => 0) = 0 := by
  simp [vsum]

theorem vsum_update (f : Nat → ℚ) (i : Nat) (x : ℚ) (h : i < 4096) :
    vsum (Function.update f i x) = vsum f + (x - f i) := by
  unfold vsum
  rw [Finset.sum_update_of_mem (Finset.mem_range.2 h), Finset.sdiff_singleton_eq_erase]
  have h2 := Finset.add_sum_erase (Finset.range 4096) f (Finset.mem_range.2 h)
  linarith

theorem vsum_nonneg (f : Nat → ℚ) (h : ∀ i, 0 ≤ f i) : 0 ≤ vsum f :=
  Finset.sum_nonneg (fun i _ => h i)

theorem vsum_div (f : Nat → ℚ) (c : ℚ) : vsum (fun i => f i / c) = vsum f / c := by
  simp [vsum, Finset.sum_div]

theorem vsum_congr (f g : Nat → ℚ) (h : ∀ i, f i = g i) : vsum f = vsum g := by
  unfold vsum
  exact Finset.sum_congr rfl (fun i _ => h i)

/-- The value of an update-fold at a key not written by the fold. -/
theorem foldl_update_not_mem (L : List (Nat × ℚ)) (g : Nat → ℚ) (q : Nat)
    (h : q ∉ L.map Prod.fst) :
    (L.foldl (fun f p => Function.update f p.1 p.2) g) q = g q := by
  induction L generalizing g with
  | nil => rfl
  | cons a rest ih =>
    simp only [List.map_cons, List.mem_cons, not_or] at h
    simp only [List.foldl_cons]
    rw [ih _ h.2, Function.update_noteq h.1]

/-- The value of an update-fold at a written key, when keys are distinct. -/
theorem foldl_update_mem (L : List (Nat × ℚ)) (g : Nat → ℚ) (q : Nat) (v : ℚ)
    (hmem : (q, v) ∈ L) (hnd : (L.map Prod.fst).Nodup) :
    (L.foldl (fun f p => Function.update f p.1 p.2) g) q = v := by
  induction L generalizing g with
  | nil => cases hmem
  | cons a rest ih =>
    simp only [List.map_cons, List.nodup_cons] at hnd
    simp only [List.foldl_cons]
    rcases List.mem_cons.1 hmem with h1 | h1
    · rw [← h1] at hnd ⊢
      rw [foldl_update_not_mem _ _ _ (by simpa using hnd.1), Function.update_same]
    · exact ih _ h1 hnd.2

/-- The total of a vector produced by an update-fold with distinct,
in-range keys. -/
theorem foldl_update_vsum (L : List (Nat × ℚ)) (g : Nat → ℚ)
    (hnd : (L.map Prod.fst).Nodup) (hlt : ∀ p ∈ L, p.1 < 4096) :
    vsum (L.foldl (fun f p => Function.update f p.1 p.2) g) =
      vsum g + (L.map (fun p => p.2 - g p.1)).sum := by
  induction L generalizing g with
  | nil => simp
  | cons a rest ih =>
    simp only [List.map_cons, List.nodup_cons] at hnd
    have ha : a.1 < 4096 := hlt a (List.mem_cons_self a rest)
    simp only [List.foldl_cons, List.map_cons, List.sum_cons]
    rw [ih _ hnd.2 (fun p hp => hlt p (List.mem_cons_of_mem a hp)),
      vsum_update _ _ _ ha]
    have hmap : rest.map (fun p => p.2 - (Function.update g a.1 a.2) p.1) =
        rest.map (fun p => p.2 - g p.1) := by
      apply List.map_congr_left
      intro p hp
      have : p.1 ≠ a.1 := by
        intro he
        exact hnd.1 (he ▸ List.mem_map_of_mem Prod.fst hp)
      rw [Function.update_noteq this]
    rw [hmap]
    ring

/-- Pointwise value of create_move_mask. -/
theorem create_move_mask_apply (legal : List Move) (q : Nat) :
    create_move_mask legal q = if q ∈ legal.map move_to_index then 1 else 0 := by
  unfold create_move_mask
  have main : ∀ (l : List Move) (init : Nat → ℚ) (q : Nat),
      (l.foldl (fun mask m => Function.update mask (move_to_index m) 1) init) q =
        if q ∈ l.map move_to_index then 1 else init q := by
    intro l
    induction l with
    | nil => intro init q; simp
    | cons m rest ih =>
      intro init q
      simp only [List.foldl_cons, List.map_cons, List.mem_cons]
      rw [ih]
      by_cases hq : q ∈ rest.map move_to_index
      · simp [hq]
      · by_cases he : q = move_to_index m
        · subst he
          simp [hq, Function.update_same]
        · simp [hq, he, Function.update_noteq he]
  rw [main]

/-! ### Tree-structure lemmas -/

theorem set_self_of_getElem? {α : Type} (l : List α) (i : Nat) (a : α)
    (h : l[i]? = some a) : l.set i a = l := by
  apply List.ext_getElem?
  intro n
  by_cases hn : n = i
  · subst hn
    have hlt : n < l.length := by
      by_contra hge
      rw [List.getElem?_eq_none (Nat.le_of_not_lt hge)] at h
      cases h
    rw [List.getElem?_set_self hlt, h]
  · rw [List.getElem?_set_ne (fun he => hn he.symm)]

theorem zip_build_fst {α β γ : Type} (f : α × β → γ) :
    ∀ (l1 : List α) (l2 : List β), l2.length = l1.length →
      ((l1.zip l2).map (fun ab => (ab.1, f ab))).map Prod.fst = l1 := by
  intro l1
  induction l1 with
  | nil => intro l2 _; simp
  | cons a rest ih =>
    intro l2 h
    cases l2 with
    | nil => cases h
    | cons b l2r =>
      simp only [List.zip_cons_cons, List.map_cons]
      rw [ih l2r (by simpa using h)]

theorem zip_map_snd {α β : Type} :
    ∀ (l1 : List α) (l2 : List β), l2.length = l1.length →
      (l1.zip l2).map (fun ab => ab.2) = l2 := by
  intro l1
  induction l1 with
  | nil =>
    intro l2 h
    cases l2 with
    | nil => simp
    | cons b l2r => cases h
  | cons a rest ih =>
    intro l2 h
    cases l2 with
    | nil => cases h
    | cons b l2r =>
      simp only [List.zip_cons_cons, List.map_cons]
      rw [ih l2r (by simpa using h)]

theorem expandNode_posId (rules : GameRules) (policy : Nat → ℚ) (t : MCTSNode) :
    (expandNode rules policy t).posId = t.posId := by
  simp [expandNode, MCTSNode.posId]

theorem expandNode_visit (rules : GameRules) (policy : Nat → ℚ) (t : MCTSNode) :
    (expandNode rules policy t).visit_count = t.visit_count := by
  simp [expandNode, MCTSNode.visit_count]

theorem expandNode_value (rules : GameRules) (policy : Nat → ℚ) (t : MCTSNode) :
    (expandNode rules policy t).value_sum = t.value_sum := by
  simp [expandNode, MCTSNode.value_sum]

theorem expandNode_children_fst (rules : GameRules) (policy : Nat → ℚ) (t : MCTSNode) :
    (expandNode rules policy t).children.map Prod.fst = rules.legalMoves t.posId := by
  unfold expandNode
  simp only [MCTSNode.children]
  split
  · apply zip_build_fst
    simp
  · apply zip_build_fst
    simp

theorem simulate_terminal (rules : GameRules) (ev : Nat → (Nat → ℚ) × ℚ) (c : ℚ)
    (s : Nat → ℚ) (fuel : Nat) (t : MCTSNode) (h : rules.isGameOver t.posId = true) :
    simulate rules ev c s (fuel + 1) t =
      (MCTSNode.mk t.posId (t.visit_count + 1)
        (t.value_sum + (rules.getResult t.posId).getD 0) t.prior t.children,
        (rules.getResult t.posId).getD 0) := by
  simp [simulate, h]

theorem simulate_children_fst (rules : GameRules) (ev : Nat → (Nat → ℚ) × ℚ) (c : ℚ)
    (s : Nat → ℚ) (fuel : Nat) (t : MCTSNode) (h : t.children ≠ []) :
    (simulate rules ev c s fuel t).1.children.map Prod.fst = t.children.map Prod.fst ∧
      (simulate rules ev c s fuel t).1.posId = t.posId := by
  match fuel with
  | 0 => exact ⟨rfl, rfl⟩
  | fuel + 1 =>
    by_cases ho : rules.isGameOver t.posId = true
    · rw [simulate_terminal rules ev c s fuel t ho]
      exact ⟨rfl, rfl⟩
    · have hbo : rules.isGameOver t.posId = false := by
        simpa using ho
      have hexp : t.is_expanded = true := by
        simp only [MCTSNode.is_expanded, decide_eq_true_eq]
        exact List.length_pos.2 h
      simp only [simulate, hexp, hbo, Bool.not_false, Bool.and_self, if_true]
      cases hmc : t.children[select_child_idx c s t]? with
      | none => exact ⟨rfl, rfl⟩
      | some mc =>
        refine ⟨?_, rfl⟩
        simp only [MCTSNode.children_mk, List.map_set]
        apply set_self_of_getElem?
        rw [List.getElem?_map, hmc]
        rfl

theorem run_simulations_children_fst (rules : GameRules) (ev : Nat → (Nat → ℚ) × ℚ)
    (c : ℚ) (s : Nat → ℚ) (fuel : Nat) :
    ∀ (n : Nat) (t : MCTSNode), t.children ≠ [] →
      (run_simulations rules ev c s fuel n t).children.map Prod.fst =
          t.children.map Prod.fst ∧
        (run_simulations rules ev c s fuel n t).posId = t.posId := by
  intro n
  induction n with
  | zero => intro t _; exact ⟨rfl, rfl⟩
  | succ k ih =>
    intro t h
    have hs := simulate_children_fst rules ev c s fuel t h
    have hne : (simulate rules ev c s fuel t).1.children ≠ [] := by
      intro he
      have h1 := hs.1
      rw [he] at h1
      exact h (List.map_eq_nil_iff.1 h1.symm)
    have hr := ih (simulate rules ev c s fuel t).1 hne
    exact ⟨hr.1.trans hs.1, hr.2.trans hs.2⟩

theorem run_simulations_terminal (rules : GameRules) (ev : Nat → (Nat → ℚ) × ℚ)
    (c : ℚ) (s : Nat → ℚ) (fuel : Nat) :
    ∀ (n : Nat) (t : MCTSNode), rules.isGameOver t.posId = true →
      run_simulations rules ev c s (fuel + 1) n t =
        MCTSNode.mk t.posId (t.visit_count + n)
          (t.value_sum + (n : ℚ) * ((rules.getResult t.posId).getD 0)) t.prior
          t.children := by
  intro n
  induction n with
  | zero =>
    intro t _
    cases t
    simp [run_simulations, MCTSNode.posId, MCTSNode.visit_count, MCTSNode.value_sum,
      MCTSNode.prior, MCTSNode.children]
  | succ k ih =>
    intro t h
    rw [show run_simulations rules ev c s (fuel + 1) (k + 1) t =
        run_simulations rules ev c s (fuel + 1) k
          (simulate rules ev c s (fuel + 1) t).1 from rfl,
      simulate_terminal rules ev c s fuel t h]
    rw [ih _ (by simpa using h)]
    simp only [MCTSNode.posId_mk, MCTSNode.visit_count_mk, MCTSNode.value_sum_mk,
      MCTSNode.prior_mk, MCTSNode.children_mk, MCTSNode.mk.injEq]
    refine ⟨trivial, by omega, by push_cast; ring, trivial, trivial⟩

/-! ### Backpropagation (claim C1) -/

theorem backpropagate_length (path : List NodeStats) (v : ℚ) :
    (backpropagate path v).length = path.length := by
  induction path generalizing v with
  | nil => rfl
  | cons n rest ih => simp [backpropagate, ih]

theorem backpropagate_getD (path : List NodeStats) (v : ℚ) (i : Nat)
    (h : i < path.length) :
    (backpropagate path v).getD i (NodeStats.mk 0 0) =
      NodeStats.mk ((path.getD i (NodeStats.mk 0 0)).visit_count + 1)
        ((path.getD i (NodeStats.mk 0 0)).value_sum + (-1) ^ i * v) := by
  induction path generalizing v i with
  | nil => cases h
  | cons n rest ih =>
    cases i with
    | zero => simp [backpropagate]
    | succ j =>
      have hj : j < rest.length := by simpa using h
      simp only [backpropagate, List.getD_cons_succ]
      rw [ih (-v) j hj]
      simp only [NodeStats.mk.injEq]
      refine ⟨trivial, ?_⟩
      ring

theorem backpropagate_three (v : ℚ) :
    backpropagate [NodeStats.mk 0 0, NodeStats.mk 0 0, NodeStats.mk 0 0] v =
      [NodeStats.mk 1 v, NodeStats.mk 1 (-v), NodeStats.mk 1 v] := by
  simp [backpropagate]

/-- C1 (amended): backpropagate(node, v) increments the visit count of every
node on the chain by one and adds (-1)^k * v to the value sum of the node k
edges above the updated node; in the synthetic 3-ply chain, backpropagating
v at the grandchild leaves the grandchild with value sum v, the child with
-v, and the root with v (the spec swaps the child and root signs). -/
theorem C1_backprop :
    (∀ (path : List NodeStats) (v : ℚ) (i : Nat), i < path.length →
      (backpropagate path v).length = path.length ∧
      (backpropagate path v).getD i (NodeStats.mk 0 0) =
        NodeStats.mk ((path.getD i (NodeStats.mk 0 0)).visit_count + 1)
          ((path.getD i (NodeStats.mk 0 0)).value_sum + (-1) ^ i * v)) ∧
    (∀ v : ℚ, backpropagate [NodeStats.mk 0 0, NodeStats.mk 0 0, NodeStats.mk 0 0] v =
      [NodeStats.mk 1 v, NodeStats.mk 1 (-v), NodeStats.mk 1 v]) :=
  ⟨fun path v i h => ⟨backpropagate_length path v, backpropagate_getD path v i h⟩,
    backpropagate_three⟩

/-- Witness for C1 at a concrete two-node chain. -/
theorem C1_backprop_witness :
    1 < 2 ∧ (backpropagate [NodeStats.mk 5 2, NodeStats.mk 7 1] 3).getD 1
      (NodeStats.mk 0 0) = NodeStats.mk 8 (-2) := by
  refine ⟨by norm_num, ?_⟩
  have h := (C1_backprop.1 [NodeStats.mk 5 2, NodeStats.mk 7 1] 3 1 (by norm_num)).2
  rw [h]
  norm_num

/-- C1 counterexample: after backpropagating v = 1 from the grandchild of a
3-ply chain, the root (2 edges up) holds value sum 1, not -1, and the child
holds -1, not 1, contradicting the claimed signs. -/
theorem C1_backprop_counterexample :
    backpropagate [NodeStats.mk 0 0, NodeStats.mk 0 0, NodeStats.mk 0 0] 1 =
      [NodeStats.mk 1 1, NodeStats.mk 1 (-1), NodeStats.mk 1 1] ∧
    ((backpropagate [NodeStats.mk 0 0, NodeStats.mk 0 0, NodeStats.mk 0 0] 1).getD 2
      (NodeStats.mk 0 0)).value_sum ≠ -1 ∧
    ((backpropagate [NodeStats.mk 0 0, NodeStats.mk 0 0, NodeStats.mk 0 0] 1).getD 1
      (NodeStats.mk 0 0)).value_sum ≠ 1 := by
  norm_num [backpropagate]

/-! ### Move encoding (claims C2 and C8) -/

/-- C2 (amended): decoding the encoding of a legal move returns the move
itself whenever the move is not a promotion, or is a queen promotion (whose
bare from-to move is illegal, as always in chess); underpromotions are
decoded to the queen promotion instead, because the encoding drops the
promotion piece and the decoder tries the queen first. -/
theorem C2_round_trip (legal : List Move) (m : Move) (hm : m ∈ legal)
    (ht : m.to_square < 64)
    (hp : m.promotion = none ∨
      (m.promotion = some 5 ∧ Move.mk m.from_square m.to_square none ∉ legal)) :
    index_to_move (move_to_index m) legal = some m := by
  have hdiv : move_to_index m / 64 = m.from_square := by
    unfold move_to_index
    omega
  have hmod : move_to_index m % 64 = m.to_square := by
    unfold move_to_index
    omega
  simp only [index_to_move]
  rw [hdiv, hmod]
  rcases hp with h0 | ⟨h5, hnb⟩
  · have hbm : Move.mk m.from_square m.to_square none = m := by
      cases m
      simp only at h0
      rw [h0]
    rw [hbm, if_pos hm]
  · rw [if_neg hnb]
    have hqm : Move.mk m.from_square m.to_square (some 5) = m := by
      cases m
      simp only at h5
      rw [h5]
    simp only [promo_candidates, first_legal_promo]
    rw [hqm, if_pos hm]

/-- Witness for C2 at the queen promotion of the modelled promotion
position. -/
theorem C2_round_trip_witness :
    promoQ ∈ promoPosLegal ∧ promoQ.to_square < 64 ∧
    index_to_move (move_to_index promoQ) promoPosLegal = some promoQ :=
  ⟨by decide, by decide,
    C2_round_trip promoPosLegal promoQ (by decide) (by decide)
      (Or.inr ⟨rfl, by decide⟩)⟩

/-- C2 counterexample: the rook underpromotion g7g8=R is legal in the
modelled promotion position, but decoding its encoding returns the queen
promotion, so the round trip fails on a promotion move. -/
theorem C2_round_trip_counterexample :
    promoR ∈ promoPosLegal ∧
    index_to_move (move_to_index promoR) promoPosLegal = some promoQ ∧
    promoQ ≠ promoR := by
  refine ⟨by decide, by decide, by decide⟩

/-- C8 (amended): move_to_index is deterministic and total, and two moves
with in-range squares receive the same index exactly when they share both
the from-square and the to-square; in particular the encoding is injective
over legal moves up to the promotion piece, and distinct promotion moves of
one pawn collide. -/
theorem C8_encoding (m1 m2 : Move) (h1 : m1.to_square < 64) (h2 : m2.to_square < 64) :
    move_to_index m1 = move_to_index m2 ↔
      m1.from_square = m2.from_square ∧ m1.to_square = m2.to_square := by
  unfold move_to_index
  constructor
  · intro h
    omega
  · intro h
    rw [h.1, h.2]

/-- Witness for C8 on two concrete in-range moves. -/
theorem C8_encoding_witness :
    (Move.mk 1 2 none).to_square < 64 ∧ (Move.mk 1 2 (some 5)).to_square < 64 ∧
    move_to_index (Move.mk 1 2 none) = move_to_index (Move.mk 1 2 (some 5)) :=
  ⟨by decide, by decide,
    (C8_encoding (Move.mk 1 2 none) (Move.mk 1 2 (some 5)) (by decide) (by decide)).2
      ⟨rfl, rfl⟩⟩

/-- C8 counterexample: the queen and rook promotions g7g8 are distinct legal
moves of the modelled promotion position and share the index 3518, so the
encoding is not injective over the legal moves of a single position. -/
theorem C8_encoding_counterexample :
    promoQ ∈ promoPosLegal ∧ promoR ∈ promoPosLegal ∧ promoQ ≠ promoR ∧
    move_to_index promoQ = move_to_index promoR := by
  refine ⟨by decide, by decide, by decide, by decide⟩

/-! ### ChessGame.make_move (claim C10) -/

/-- C10 (confirmed): make_move pushes the move and records it in the move
history exactly when the move is legal, returning true; an illegal move
returns false and leaves the game state (board and history) unchanged. -/
theorem C10_make_move (api : BoardAPI) (g : ChessGame) (m : Move) :
    (m ∈ api.legal_moves g.board →
      make_move api g m =
        (true, ChessGame.mk (api.push g.board m) (g.move_history ++ [m]))) ∧
    (m ∉ api.legal_moves g.board → make_move api g m = (false, g)) := by
  constructor <;> intro h <;> simp [make_move, h]

/-- Witness for C10: the opening move of the scripted game is legal and is
pushed. -/
theorem C10_make_move_witness :
    mateScriptMove 0 ∈ mateAPI.legal_moves 0 ∧
    make_move mateAPI (ChessGame.mk 0 []) (mateScriptMove 0) =
      (true, ChessGame.mk 1 [mateScriptMove 0]) :=
  ⟨by decide,
    (C10_make_move mateAPI (ChessGame.mk 0 []) (mateScriptMove 0)).1 (by decide)⟩

/-! ### ChessGame.get_result (claim C9) -/

/-- C9 (confirmed): on a finished game with a decisive result, get_result
returns 1 exactly when the winning side is not the side to move at the
terminal position (the winner made the last move) and -1 exactly when the
winning side is the side to move; it returns 0 for non-decisive results and
none while the game is running. -/
theorem C9_get_result (api : BoardAPI) (g : ChessGame) :
    (api.is_game_over g.board = false → get_result api g = none) ∧
    (api.is_game_over g.board = true →
      (∀ w : Bool, winnerOf (api.result g.board) = some w →
        (get_result api g = some 1 ↔ w ≠ api.turn g.board) ∧
        (get_result api g = some (-1) ↔ w = api.turn g.board)) ∧
      (winnerOf (api.result g.board) = none → get_result api g = some 0)) := by
  constructor
  · intro h
    simp [get_result, h]
  · intro hov
    constructor
    · intro w hw
      by_cases h10 : api.result g.board = "1-0"
      · have hwt : w = true := by
          simp [winnerOf, h10] at hw
          exact hw
        subst hwt
        cases ht : api.turn g.board
        · have hval : get_result api g = some 1 := by
            simp [get_result, hov, h10, ht]
          refine ⟨⟨fun _ => by decide, fun _ => hval⟩, ?_, ?_⟩
          · intro hc
            rw [hval] at hc
            have hx : (1 : ℚ) = -1 := Option.some.inj hc
            norm_num at hx
          · intro hc
            cases hc
        · have hval : get_result api g = some (-1) := by
            simp [get_result, hov, h10, ht]
          refine ⟨⟨?_, fun hc => absurd rfl hc⟩, ⟨fun _ => rfl, fun _ => hval⟩⟩
          intro hc
          rw [hval] at hc
          have hx : (-1 : ℚ) = 1 := Option.some.inj hc
          norm_num at hx
      · by_cases h01 : api.result g.board = "0-1"
        · have hwt : w = false := by
            simp [winnerOf, h10, h01] at hw
            exact hw
          subst hwt
          cases ht : api.turn g.board
          · have hval : get_result api g = some (-1) := by
              simp [get_result, hov, h10, h01, ht]
            refine ⟨⟨?_, fun hc => absurd rfl hc⟩, ⟨fun _ => rfl, fun _ => hval⟩⟩
            intro hc
            rw [hval] at hc
            have hx : (-1 : ℚ) = 1 := Option.some.inj hc
            norm_num at hx
          · have hval : get_result api g = some 1 := by
              simp [get_result, hov, h10, h01, ht]
            refine ⟨⟨fun _ => by decide, fun _ => hval⟩, ?_, ?_⟩
            · intro hc
              rw [hval] at hc
              have hx : (1 : ℚ) = -1 := Option.some.inj hc
              norm_num at hx
            · intro hc
              cases hc
        · simp [winnerOf, h10, h01] at hw
    · intro hnone
      by_cases h10 : api.result g.board = "1-0"
      · simp [winnerOf, h10] at hnone
      · by_cases h01 : api.result g.board = "0-1"
        · simp [winnerOf, h10, h01] at hnone
        · simp [get_result, hov, h10, h01]

/-- Witness for C9 at the terminal board of the scripted mate: White has
won, Black is to move, and get_result returns 1. -/
theorem C9_get_result_witness :
    mateAPI.is_game_over 5 = true ∧ winnerOf (mateAPI.result 5) = some true ∧
    get_result mateAPI (ChessGame.mk 5 []) = some 1 := by
  refine ⟨by decide, ?_, ?_⟩
  · simp [winnerOf, mateAPI]
  · refine (((C9_get_result mateAPI (ChessGame.mk 5 [])).2 (by decide)).1 true ?_).1.mpr ?_
    · simp [winnerOf, mateAPI]
    · simp [mateAPI]

/-! ### Temperature (claim C5) -/

theorem apply_temperature_ne_one (policy : Nat → ℚ) (T : ℚ) (h : ¬T = 1) (i : Nat) :
    apply_temperature policy T i =
      qpow (policy i) (1 / T) /
        (vsum (fun j => qpow (policy j) (1 / T)) + 1 / 100000000) := by
  simp only [apply_temperature, if_neg h]

theorem qpow_natCast (x : ℚ) (n : Nat) : qpow x ((n : ℚ)) = x ^ n := by
  unfold qpow
  rw [if_pos ⟨Rat.den_natCast n, by simp⟩]
  congr 1

theorem sharp_small (n : Nat) (hn : 100 ≤ n) (i : Nat) :
    apply_temperature sharpTarget (1 / (n : ℚ)) i < 1 / 2 := by
  have hnq : (0 : ℚ) < (n : ℚ) := by
    have : 0 < n := by omega
    exact_mod_cast this
  have htne : ¬(1 / (n : ℚ) = 1) := by
    intro h
    rw [div_eq_iff (ne_of_gt hnq), one_mul] at h
    have : (n : ℚ) = 1 := h.symm
    have : n = 1 := by exact_mod_cast this
    omega
  have hexp : (1 : ℚ) / (1 / (n : ℚ)) = (n : ℚ) := one_div_one_div _
  have hq : ∀ x : ℚ, qpow x (1 / (1 / (n : ℚ))) = x ^ n := by
    intro x
    rw [hexp, qpow_natCast]
  have hTpoint : ∀ j, qpow (sharpTarget j) (1 / (1 / (n : ℚ))) =
      Function.update (Function.update (fun _ => (0 : ℚ)) 0 ((3 / 4 : ℚ) ^ n)) 1
        ((1 / 4 : ℚ) ^ n) j := by
    intro j
    rw [hq]
    by_cases h1 : j = 1
    · subst h1
      simp [sharpTarget, Function.update]
    · by_cases h0 : j = 0
      · subst h0
        simp [sharpTarget, Function.update]
      · simp [sharpTarget, Function.update, h0, h1, zero_pow (by omega : n ≠ 0)]
  have hsum : vsum (fun j => qpow (sharpTarget j) (1 / (1 / (n : ℚ)))) =
      (3 / 4 : ℚ) ^ n + (1 / 4 : ℚ) ^ n := by
    rw [vsum_congr _ _ hTpoint, vsum_update _ _ _ (by norm_num),
      vsum_update _ _ _ (by norm_num), vsum_zero]
    simp [Function.update]
  have hb3 : (3 / 4 : ℚ) ^ n < 1 / 200000000 := by
    have h1 : (3 / 4 : ℚ) ^ n ≤ (3 / 4 : ℚ) ^ 100 :=
      pow_le_pow_of_le_one (by norm_num) (by norm_num) hn
    have h2 : (3 / 4 : ℚ) ^ 100 < 1 / 200000000 := by norm_num
    linarith
  have hb1 : (1 / 4 : ℚ) ^ n ≤ (3 / 4 : ℚ) ^ n :=
    pow_le_pow_left₀ (by norm_num) (by norm_num) n
  have h3nn : (0 : ℚ) ≤ (3 / 4 : ℚ) ^ n := by positivity
  have h1nn : (0 : ℚ) ≤ (1 / 4 : ℚ) ^ n := by positivity
  rw [apply_temperature_ne_one _ _ htne, hsum, hTpoint]
  have hden : (0 : ℚ) < (3 / 4 : ℚ) ^ n + (1 / 4 : ℚ) ^ n + 1 / 100000000 := by
    positivity
  rw [div_lt_iff₀ hden]
  by_cases h1 : i = 1
  · subst h1
    simp only [Function.update_same]
    nlinarith
  · by_cases h0 : i = 0
    · subst h0
      simp only [Function.update]
      norm_num
      nlinarith
    · simp only [Function.update_noteq h1, Function.update_noteq h0]
      nlinarith

/-- C5 (amended): apply_temperature at temperature 1 is the identity; but as
the temperature tends to 0 the result does not tend to a one-hot vector on
the argmax: on the policy 3/4, 1/4 every entry of the output stays below
1/2 for every temperature 1/n with n at least 100, because the entries
p ^ n all fall below the 1e-8 guard added to the normalizing denominator
(at temperature exactly 0 the Python code raises ZeroDivisionError). -/
theorem C5_apply_temperature :
    (∀ policy : Nat → ℚ, apply_temperature policy 1 = policy) ∧
    (∀ n : Nat, 100 ≤ n → ∀ i,
      apply_temperature sharpTarget (1 / (n : ℚ)) i < 1 / 2) :=
  ⟨fun policy => by simp [apply_temperature], fun n hn i => sharp_small n hn i⟩

/-- Witness for C5: identity at temperature 1 and smallness at temperature
1/100. -/
theorem C5_apply_temperature_witness :
    apply_temperature (fun _ => 5) 1 = (fun _ => 5) ∧ 100 ≤ 100 ∧
    apply_temperature sharpTarget (1 / (100 : ℚ)) 0 < 1 / 2 :=
  ⟨C5_apply_temperature.1 _, by norm_num, C5_apply_temperature.2 100 (by norm_num) 0⟩

/-- C5 counterexample: at temperature 1/1000 the transformed 3/4, 1/4
policy has both entries below 1/2, although its argmax entry is 3/4; the
output is nowhere near the one-hot vector the claim requires in the small
temperature limit. -/
theorem C5_apply_temperature_counterexample :
    sharpTarget 0 = 3 / 4 ∧ sharpTarget 1 = 1 / 4 ∧
    apply_temperature sharpTarget (1 / (1000 : ℚ)) 0 < 1 / 2 ∧
    apply_temperature sharpTarget (1 / (1000 : ℚ)) 1 < 1 / 2 := by
  refine ⟨?_, ?_, sharp_small 1000 (by norm_num) 0, sharp_small 1000 (by norm_num) 1⟩
  · simp [sharpTarget, Function.update]
  · simp [sharpTarget, Function.update]

/-! ### Node expansion priors (claim C7) -/

theorem list_sum_div (l : List ℚ) (c : ℚ) :
    (l.map (fun x => x / c)).sum = l.sum / c := by
  induction l with
  | nil => simp
  | cons a rest ih => simp [ih, add_div]

theorem list_sum_const {α : Type} (l : List α) (c : ℚ) :
    (l.map (fun _ => c)).sum = (l.length : ℚ) * c := by
  induction l with
  | nil => simp
  | cons a rest ih =>
    simp [ih]
    ring

theorem expandNode_children_priors (rules : GameRules) (policy : Nat → ℚ)
    (t : MCTSNode) :
    (expandNode rules policy t).children.map (fun mc => mc.2.prior) =
      (if 0 < ((rules.legalMoves t.posId).map (fun m =>
          policy (move_to_index m) *
            create_move_mask (rules.legalMoves t.posId) (move_to_index m))).sum
       then ((rules.legalMoves t.posId).map (fun m =>
          policy (move_to_index m) *
            create_move_mask (rules.legalMoves t.posId) (move_to_index m))).map
            (fun x => x / ((rules.legalMoves t.posId).map (fun m =>
              policy (move_to_index m) *
                create_move_mask (rules.legalMoves t.posId) (move_to_index m))).sum)
       else (rules.legalMoves t.posId).map
          (fun _ => 1 / ((rules.legalMoves t.posId).length : ℚ))) := by
  unfold expandNode
  simp only [MCTSNode.children_mk, List.map_map]
  have hcomp : ((fun mc : Move × MCTSNode => mc.2.prior) ∘
      (fun mp : Move × ℚ =>
        (mp.1, MCTSNode.mk (rules.applyMove t.posId mp.1) 0 0 mp.2 []))) =
      fun mp : Move × ℚ => mp.2 := by
    funext mp
    rfl
  rw [hcomp]
  split
  · exact zip_map_snd _ _ (by simp)
  · exact zip_map_snd _ _ (by simp)

/-- C7 (confirmed): expand creates one child per legal move; when the masked
policy mass over the legal moves has positive total, each prior is that
mass renormalized over the legal moves only, and when the total is zero (or
not positive) every child receives the uniform prior 1 over the number of
legal moves; in both cases the sibling priors sum to 1 and no division by
zero occurs. -/
theorem C7_expand (rules : GameRules) (policy : Nat → ℚ) (t : MCTSNode)
    (hne : rules.legalMoves t.posId ≠ []) :
    ((expandNode rules policy t).children.map Prod.fst = rules.legalMoves t.posId) ∧
    ((expandNode rules policy t).children.map (fun mc => mc.2.prior) =
      (if 0 < ((rules.legalMoves t.posId).map (fun m =>
          policy (move_to_index m) *
            create_move_mask (rules.legalMoves t.posId) (move_to_index m))).sum
       then ((rules.legalMoves t.posId).map (fun m =>
          policy (move_to_index m) *
            create_move_mask (rules.legalMoves t.posId) (move_to_index m))).map
            (fun x => x / ((rules.legalMoves t.posId).map (fun m =>
              policy (move_to_index m) *
                create_move_mask (rules.legalMoves t.posId) (move_to_index m))).sum)
       else (rules.legalMoves t.posId).map
          (fun _ => 1 / ((rules.legalMoves t.posId).length : ℚ)))) ∧
    ((expandNode rules policy t).children.map (fun mc => mc.2.prior)).sum = 1 := by
  refine ⟨expandNode_children_fst rules policy t,
    expandNode_children_priors rules policy t, ?_⟩
  rw [expandNode_children_priors rules policy t]
  split
  · rw [list_sum_div]
    exact div_self (by linarith)
  · rw [list_sum_const]
    have hlen : ((rules.legalMoves t.posId).length : ℚ) ≠ 0 := by
      have : (rules.legalMoves t.posId).length ≠ 0 := by
        simpa [List.length_eq_zero] using hne
      exact_mod_cast this
    field_simp

/-- Witness for C7 at a single-move position with the all-zero policy: the
uniform fallback fires and the single prior sums to 1. -/
theorem C7_expand_witness :
    uniRules.legalMoves 0 ≠ [] ∧
    ((expandNode uniRules (fun _ => 0) (MCTSNode.mk 0 0 0 0 [])).children.map
      (fun mc => mc.2.prior)).sum = 1 :=
  ⟨by decide,
    (C7_expand uniRules (fun _ => 0) (MCTSNode.mk 0 0 0 0 []) (by decide)).2.2⟩

/-! ### Search on a terminal position (claim C3) -/

theorem apply_temperature_zero_vec (T : ℚ) (hT : T ≠ 0) (i : Nat) :
    apply_temperature (fun _ => 0) T i = 0 := by
  by_cases h1 : T = 1
  · subst h1
    simp [apply_temperature]
  · rw [apply_temperature_ne_one _ _ h1]
    have hq : qpow (0 : ℚ) (1 / T) = 0 := by
      unfold qpow
      by_cases hc : (1 / T : ℚ).den = 1 ∧ 0 ≤ (1 / T : ℚ).num
      · rw [if_pos hc]
        have hne : (1 / T : ℚ) ≠ 0 := one_div_ne_zero hT
        have hnum : (1 / T : ℚ).num ≠ 0 := Rat.num_ne_zero.2 hne
        have htn : (1 / T : ℚ).num.toNat ≠ 0 := by omega
        exact zero_pow htn
      · rw [if_neg hc]
    simp only [hq]
    exact zero_div _

/-- The value of MCTS.search on a position with no legal moves that the
rules engine reports as over: no move, the all-zero vector passed through
apply_temperature, and a root that has accumulated one visit and one
terminal-value backpropagation per configured simulation. -/
theorem search_terminal_eq (rules : GameRules) (ev : Nat → (Nat → ℚ) × ℚ)
    (noise : List ℚ) (sqrtQ : Nat → ℚ) (n : Nat) (c_puct temperature : ℚ) (pos : Nat)
    (hleg : rules.legalMoves pos = []) (hov : rules.isGameOver pos = true) :
    MCTS.search rules ev noise sqrtQ n c_puct temperature pos =
      (none, apply_temperature (fun _ => 0) temperature,
        MCTSNode.mk pos n ((n : ℚ) * ((rules.getResult pos).getD 0)) 0 []) := by
  have hroot1 : expandNode rules ((ev pos).1) (MCTSNode.mk pos 0 0 0 []) =
      MCTSNode.mk pos 0 0 0 [] := by
    unfold expandNode
    simp [hleg]
  have hfuel : n + 2 = (n + 1) + 1 := rfl
  have hrootN := run_simulations_terminal rules ev c_puct sqrtQ (n + 1) n
    (MCTSNode.mk pos 0 0 0 []) (by simpa using hov)
  unfold MCTS.search
  rw [hleg]
  simp only [List.length_nil, lt_self_iff_false, if_false, List.foldl_nil]
  rw [hroot1, hfuel, hrootN]
  simp only [MCTSNode.posId_mk, MCTSNode.visit_count_mk, MCTSNode.value_sum_mk,
    MCTSNode.prior_mk, MCTSNode.children_mk, List.foldl_nil, zero_add]
  rw [vsum_zero]
  simp only [lt_self_iff_false, if_false, if_true, List.foldl_nil]

/-- C3 (amended): invoking search on a position with zero legal moves (and
hence a terminal position) returns (none, all-zero target) without raising
an error, but it does NOT return immediately: it still executes every one
of its configured simulations, each of which evaluates the terminal root
and backpropagates its result value there, so the root visit count equals
num_simulations after the call. -/
theorem C3_terminal_search (rules : GameRules) (ev : Nat → (Nat → ℚ) × ℚ)
    (noise : List ℚ) (sqrtQ : Nat → ℚ) (n : Nat) (c_puct temperature : ℚ) (pos : Nat)
    (hleg : rules.legalMoves pos = []) (hov : rules.isGameOver pos = true)
    (hT : temperature ≠ 0) :
    (MCTS.search rules ev noise sqrtQ n c_puct temperature pos).1 = none ∧
    (∀ i, (MCTS.search rules ev noise sqrtQ n c_puct temperature pos).2.1 i = 0) ∧
    (MCTS.search rules ev noise sqrtQ n c_puct temperature pos).2.2.visit_count = n ∧
    (MCTS.search rules ev noise sqrtQ n c_puct temperature pos).2.2.value_sum =
      (n : ℚ) * ((rules.getResult pos).getD 0) := by
  rw [search_terminal_eq rules ev noise sqrtQ n c_puct temperature pos hleg hov]
  exact ⟨rfl, fun i => apply_temperature_zero_vec temperature hT i, by simp, by simp⟩

/-- Witness for C3 at the modelled stalemate position with three
simulations and the default temperature 1. -/
theorem C3_terminal_search_witness :
    staleRules.legalMoves 0 = [] ∧ staleRules.isGameOver 0 = true ∧ (1 : ℚ) ≠ 0 ∧
    (MCTS.search staleRules zeroEval [] sqrtModel 3 1 1 0).1 = none ∧
    (MCTS.search staleRules zeroEval [] sqrtModel 3 1 1 0).2.1 7 = 0 ∧
    (MCTS.search staleRules zeroEval [] sqrtModel 3 1 1 0).2.2.visit_count = 3 := by
  have h := C3_terminal_search staleRules zeroEval [] sqrtModel 3 1 1 0 rfl rfl
    (by norm_num)
  exact ⟨rfl, rfl, by norm_num, h.1, h.2.1 7, h.2.2.1⟩

/-- C3 counterexample: on the stalemate position with two configured
simulations, search leaves the root with visit count 2: two simulations
were performed, contradicting the claim that search returns immediately
without performing any simulations. -/
theorem C3_terminal_search_counterexample :
    (MCTS.search staleRules zeroEval [] sqrtModel 2 1 1 0).2.2.visit_count = 2 ∧
    (2 : Nat) ≠ 0 := by
  rw [search_terminal_eq staleRules zeroEval [] sqrtModel 2 1 1 0 rfl rfl]
  exact ⟨by simp, by norm_num⟩

/-! ### Self-play outcome labels (claim C4) -/

theorem play_game_outcome (api : BoardAPI) (searchFn : Nat → Option Move × (Nat → ℚ))
    (max_moves : Nat) (g0 : ChessGame) (i : Nat)
    (h : i < (play_game api searchFn max_moves g0).length) :
    ((play_game api searchFn max_moves g0).getD i (0, (fun _ => 0), 0)).2.2 =
      (if i % 2 = 0 then
        ((get_result api (playLoop api searchFn max_moves g0 []).2).getD 0)
       else
        -((get_result api (playLoop api searchFn max_moves g0 []).2).getD 0)) := by
  have hlen : i < (playLoop api searchFn max_moves g0 []).1.length := by
    simpa [play_game] using h
  simp only [play_game, List.getD_eq_getElem?_getD, List.getElem?_map,
    List.getElem?_enum, List.getElem?_eq_getElem hlen, Option.map_some',
    Option.getD_some]

/-- C4 (amended): play_game labels the record at ply index i with R when i
is even and with -R when i is odd, where R is the value returned by
ChessGame.get_result at the final position (0 when the game is not over).
That value is expressed for the player who made the last move -- it is +1
at any decisive termination -- not for the player to move at termination as
the claim states, so the labels are the negation of the claimed ones in
decisive games; the alternation itself holds, and ply 1 always receives
the negation of ply 0. -/
theorem C4_self_play_labels (api : BoardAPI)
    (searchFn : Nat → Option Move × (Nat → ℚ)) (max_moves : Nat) (g0 : ChessGame) :
    (∀ i, i < (play_game api searchFn max_moves g0).length →
      ((play_game api searchFn max_moves g0).getD i (0, (fun _ => 0), 0)).2.2 =
        (if i % 2 = 0 then
          ((get_result api (playLoop api searchFn max_moves g0 []).2).getD 0)
         else
          -((get_result api (playLoop api searchFn max_moves g0 []).2).getD 0))) ∧
    (2 ≤ (play_game api searchFn max_moves g0).length →
      ((play_game api searchFn max_moves g0).getD 1 (0, (fun _ => 0), 0)).2.2 =
        -(((play_game api searchFn max_moves g0).getD 0 (0, (fun _ => 0), 0)).2.2)) := by
  constructor
  · intro i h
    exact play_game_outcome api searchFn max_moves g0 i h
  · intro h2
    rw [play_game_outcome api searchFn max_moves g0 1 (by omega),
      play_game_outcome api searchFn max_moves g0 0 (by omega)]
    norm_num

/-- Witness for C4 along the scripted mating game: the game records five
plies and the label of ply 0 is the terminal result value. -/
theorem C4_self_play_labels_witness :
    0 < (play_game mateAPI mateSearch 400 (ChessGame.mk 0 [])).length ∧
    ((play_game mateAPI mateSearch 400 (ChessGame.mk 0 [])).getD 0
      (0, (fun _ => 0), 0)).2.2 =
      (if 0 % 2 = 0 then
        ((get_result mateAPI
          (playLoop mateAPI mateSearch 400 (ChessGame.mk 0 []) []).2).getD 0)
       else
        -((get_result mateAPI
          (playLoop mateAPI mateSearch 400 (ChessGame.mk 0 []) []).2).getD 0)) := by
  have hl : 0 < (play_game mateAPI mateSearch 400 (ChessGame.mk 0 [])).length := by
    decide
  exact ⟨hl, (C4_self_play_labels mateAPI mateSearch 400 (ChessGame.mk 0 [])).1 0 hl⟩

/-- C4 counterexample: along the scripted game 1. e4 f6 2. d4 g5 3. Qh5
mate, the code labels ply 0 with +1, while the result expressed for the
player to move at termination (Black, who is mated) is -1; the claim
prescribes -1 for ply 0 and the code assigns +1. -/
theorem C4_self_play_labels_counterexample :
    ((play_game mateAPI mateSearch 400 (ChessGame.mk 0 [])).map
      (fun r => r.2.2)).getD 0 37 = 1 ∧
    specToMoveResult
      (winnerOf (mateAPI.result
        (playLoop mateAPI mateSearch 400 (ChessGame.mk 0 []) []).2.board))
      (mateAPI.turn
        (playLoop mateAPI mateSearch 400 (ChessGame.mk 0 []) []).2.board) = -1 ∧
    (1 : ℚ) ≠ -1 := by
  refine ⟨by decide, by decide, by norm_num⟩

/-! ### Policy-target normalization (claim C6) -/

theorem apply_temperature_one (policy : Nat → ℚ) : apply_temperature policy 1 = policy := by
  simp [apply_temperature]

theorem list_sum_nonneg (l : List ℚ) (h : ∀ x ∈ l, 0 ≤ x) : 0 ≤ l.sum := by
  induction l with
  | nil => simp
  | cons a rest ih =>
    simp only [List.sum_cons]
    have h1 := h a (List.mem_cons_self a rest)
    have h2 := ih (fun x hx => h x (List.mem_cons_of_mem a hx))
    linarith

theorem list_sum_zero_entries (l : List ℚ) (h : ∀ x ∈ l, 0 ≤ x) (hs : l.sum = 0) :
    ∀ x ∈ l, x = 0 := by
  induction l with
  | nil => intro x hx; cases hx
  | cons a rest ih =>
    intro x hx
    simp only [List.sum_cons] at hs
    have ha := h a (List.mem_cons_self a rest)
    have hr : 0 ≤ rest.sum :=
      list_sum_nonneg rest (fun y hy => h y (List.mem_cons_of_mem a hy))
    have ha0 : a = 0 := by linarith
    have hrs : rest.sum = 0 := by linarith
    rcases List.mem_cons.1 hx with h1 | h1
    · rw [h1, ha0]
    · exact ih (fun y hy => h y (List.mem_cons_of_mem a hy)) hrs x h1

theorem foldl_update_children (children : List (Move × MCTSNode)) (z : Nat → ℚ) :
    children.foldl (fun vc mc => Function.update vc (move_to_index mc.1)
      ((mc.2.visit_count : ℚ))) z =
    (children.map (fun mc => (move_to_index mc.1, (mc.2.visit_count : ℚ)))).foldl
      (fun f p => Function.update f p.1 p.2) z := by
  rw [List.foldl_map]

theorem foldl_update_legal (legal : List Move) (c : ℚ) (z : Nat → ℚ) :
    legal.foldl (fun vc m => Function.update vc (move_to_index m) c) z =
    (legal.map (fun m => (move_to_index m, c))).foldl
      (fun f p => Function.update f p.1 p.2) z := by
  rw [List.foldl_map]

/-- The visit-count normalization stage at the end of MCTS.search: when the
children carry exactly one key per legal move and no two legal moves share
an action index, the resulting vector sums to 1, through the normalizing
branch when some visit was recorded and through the uniform fallback
otherwise. -/
theorem target_stage_sum (children : List (Move × MCTSNode)) (legal : List Move)
    (hk : children.map Prod.fst = legal) (hne : legal ≠ [])
    (hnd : (legal.map move_to_index).Nodup)
    (h64 : ∀ m ∈ legal, m.from_square < 64 ∧ m.to_square < 64) :
    vsum (if 0 < vsum (children.foldl (fun vc mc => Function.update vc
          (move_to_index mc.1) ((mc.2.visit_count : ℚ))) (fun _ => (0 : ℚ)))
      then fun i => (children.foldl (fun vc mc => Function.update vc
          (move_to_index mc.1) ((mc.2.visit_count : ℚ))) (fun _ => (0 : ℚ))) i /
        vsum (children.foldl (fun vc mc => Function.update vc
          (move_to_index mc.1) ((mc.2.visit_count : ℚ))) (fun _ => (0 : ℚ)))
      else legal.foldl (fun vc m => Function.update vc (move_to_index m)
          (1 / (legal.length : ℚ)))
        (children.foldl (fun vc mc => Function.update vc
          (move_to_index mc.1) ((mc.2.visit_count : ℚ))) (fun _ => (0 : ℚ)))) = 1 := by
  have hlen0 : legal.length ≠ 0 := by
    simpa [List.length_eq_zero] using hne
  have hmapfst : (children.map (fun mc => (move_to_index mc.1,
      (mc.2.visit_count : ℚ)))).map Prod.fst = legal.map move_to_index := by
    rw [← hk, List.map_map, List.map_map]
    rfl
  have hnd1 : ((children.map (fun mc => (move_to_index mc.1,
      (mc.2.visit_count : ℚ)))).map Prod.fst).Nodup := by
    rw [hmapfst]
    exact hnd
  have hbound1 : ∀ p ∈ children.map (fun mc => (move_to_index mc.1,
      (mc.2.visit_count : ℚ))), p.1 < 4096 := by
    intro p hp
    rcases List.mem_map.1 hp with ⟨mc, hmc, hpe⟩
    have hmem : mc.1 ∈ legal := by
      rw [← hk]
      exact List.mem_map_of_mem Prod.fst hmc
    have hb := h64 mc.1 hmem
    rw [← hpe]
    have hb1 := hb.1
    have hb2 := hb.2
    simp only [move_to_index]
    omega
  have hsumvc : vsum ((children.map (fun mc => (move_to_index mc.1,
      (mc.2.visit_count : ℚ)))).foldl (fun f p => Function.update f p.1 p.2)
      (fun _ => (0 : ℚ))) =
      ((children.map (fun mc => (move_to_index mc.1,
        (mc.2.visit_count : ℚ)))).map (fun p => p.2)).sum := by
    rw [foldl_update_vsum _ _ hnd1 hbound1, vsum_zero, zero_add]
    congr 1
    apply List.map_congr_left
    intro p _
    ring
  have hnn : ∀ x ∈ (children.map (fun mc => (move_to_index mc.1,
      (mc.2.visit_count : ℚ)))).map (fun p => p.2), 0 ≤ x := by
    intro x hx
    rcases List.mem_map.1 hx with ⟨p, hp, hpe⟩
    rcases List.mem_map.1 hp with ⟨mc, _, hme⟩
    rw [← hpe, ← hme]
    exact Nat.cast_nonneg _
  rw [foldl_update_children]
  split
  · rename_i hpos
    rw [vsum_div]
    exact div_self (ne_of_gt hpos)
  · rename_i hnpos
    have hS0 : ((children.map (fun mc => (move_to_index mc.1,
        (mc.2.visit_count : ℚ)))).map (fun p => p.2)).sum = 0 := by
      have hge := list_sum_nonneg _ hnn
      rw [hsumvc] at hnpos
      linarith [not_lt.1 hnpos]
    have hVC0 : ∀ q ∈ legal, ((children.map (fun mc => (move_to_index mc.1,
        (mc.2.visit_count : ℚ)))).foldl (fun f p => Function.update f p.1 p.2)
        (fun _ => (0 : ℚ))) (move_to_index q) = 0 := by
      intro q hq
      have hqm : move_to_index q ∈ (children.map (fun mc => (move_to_index mc.1,
          (mc.2.visit_count : ℚ)))).map Prod.fst := by
        rw [hmapfst]
        exact List.mem_map_of_mem move_to_index hq
      rcases List.mem_map.1 hqm with ⟨p, hp, hpe⟩
      have hval := foldl_update_mem _ (fun _ => (0 : ℚ)) p.1 p.2 (by
        rwa [Prod.mk.eta]) hnd1
      have hp2 : p.2 = 0 :=
        list_sum_zero_entries _ hnn hS0 p.2 (List.mem_map_of_mem _ hp)
      rw [← hpe, hval, hp2]
    rw [foldl_update_legal, foldl_update_vsum _ _ (by
        rw [List.map_map]
        exact hnd) (by
        intro p hp
        rcases List.mem_map.1 hp with ⟨m, hm, hpe⟩
        have hb := h64 m hm
        have hb1 := hb.1
        have hb2 := hb.2
        rw [← hpe]
        simp only [move_to_index]
        omega),
      hsumvc, hS0, zero_add]
    have hconst : (legal.map (fun m => (move_to_index m,
        1 / (legal.length : ℚ)))).map (fun p => p.2 -
          ((children.map (fun mc => (move_to_index mc.1,
            (mc.2.visit_count : ℚ)))).foldl (fun f p => Function.update f p.1 p.2)
            (fun _ => (0 : ℚ))) p.1) =
        (legal.map (fun m => (move_to_index m, 1 / (legal.length : ℚ)))).map
          (fun _ => 1 / (legal.length : ℚ)) := by
      apply List.map_congr_left
      intro p hp
      rcases List.mem_map.1 hp with ⟨m, hm, hpe⟩
      rw [← hpe]
      simp only
      rw [hVC0 m hm]
      ring
    rw [hconst, list_sum_const, List.length_map]
    have : ((legal.length : ℚ)) ≠ 0 := by exact_mod_cast hlen0
    field_simp

set_option maxRecDepth 10000

/-- C6 (amended): whenever the position has at least one legal move and no
two legal moves share an action index (no promotions among them), the
policy target returned by search at the default temperature 1 sums to
exactly 1 -- through visit-count normalization when any visits were
recorded at the surviving index of each move, and through the uniform
fallback otherwise.  When legal moves share an index (promotions), the
visit counts written later overwrite earlier ones and the fallback can
return a target summing to less than 1. -/
theorem C6_target_sum (rules : GameRules) (ev : Nat → (Nat → ℚ) × ℚ)
    (noise : List ℚ) (sqrtQ : Nat → ℚ) (n : Nat) (c_puct : ℚ) (pos : Nat)
    (hne : rules.legalMoves pos ≠ [])
    (hnd : ((rules.legalMoves pos).map move_to_index).Nodup)
    (h64 : ∀ m ∈ rules.legalMoves pos, m.from_square < 64 ∧ m.to_square < 64) :
    vsum ((MCTS.search rules ev noise sqrtQ n c_puct 1 pos).2.1) = 1 := by
  have hfst : ∀ policy : Nat → ℚ,
      (run_simulations rules ev c_puct sqrtQ (n + 2) n
        (expandNode rules policy (MCTSNode.mk pos 0 0 0 []))).children.map Prod.fst =
        rules.legalMoves pos := by
    intro policy
    have h1 := expandNode_children_fst rules policy (MCTSNode.mk pos 0 0 0 [])
    rw [MCTSNode.posId_mk] at h1
    have hne2 : (expandNode rules policy (MCTSNode.mk pos 0 0 0 [])).children ≠ [] := by
      intro he
      rw [he] at h1
      exact hne (by simpa using h1.symm)
    exact ((run_simulations_children_fst rules ev c_puct sqrtQ (n + 2) n _ hne2).1).trans h1
  simp only [MCTS.search, apply_temperature_one]
  split
  · rename_i h0
    exact absurd (List.length_eq_zero.mp h0) hne
  · exact target_stage_sum _ _ (hfst _) hne hnd h64

/-- Witness for C6 at a single-move position with one simulation. -/
theorem C6_target_sum_witness :
    uniRules.legalMoves 0 ≠ [] ∧
    ((uniRules.legalMoves 0).map move_to_index).Nodup ∧
    (∀ m ∈ uniRules.legalMoves 0, m.from_square < 64 ∧ m.to_square < 64) ∧
    vsum ((MCTS.search uniRules zeroEval [1] sqrtModel 1 1 1 0).2.1) = 1 :=
  ⟨by decide, by decide, by decide,
    C6_target_sum uniRules zeroEval [1] sqrtModel 1 1 0 (by decide) (by decide)
      (by decide)⟩

theorem promo_children_build (probs : List ℚ) (hlen : probs.length = 4) :
    ∃ a b c d : ℚ,
    MCTSNode.mk 0 0 0 0 ((promoPosLegal.zip probs).map (fun mp =>
      (mp.1, MCTSNode.mk (promoRules.applyMove 0 mp.1) 0 0 mp.2 []))) =
    promoRoot1 a b c d := by
  rcases probs with _ | ⟨a, _ | ⟨b, _ | ⟨c, _ | ⟨d, _ | ⟨e, rest⟩⟩⟩⟩⟩ <;>
    simp at hlen
  refine ⟨a, b, c, d, ?_⟩
  simp [promoRoot1, promoPosLegal, promoRules, promoQ, promoR, promoB, promoN]

theorem promo_expand_root (policy : Nat → ℚ) : ∃ a b c d : ℚ,
    expandNode promoRules policy (MCTSNode.mk 0 0 0 0 []) = promoRoot1 a b c d := by
  unfold expandNode
  simp only [MCTSNode.posId_mk, MCTSNode.visit_count_mk, MCTSNode.value_sum_mk,
    MCTSNode.prior_mk]
  have hleg : promoRules.legalMoves 0 = promoPosLegal := rfl
  rw [hleg]
  split
  · exact promo_children_build _ (by simp [promoPosLegal])
  · exact promo_children_build _ (by simp [promoPosLegal])

theorem promo_simulate_root (a b c d : ℚ) :
    simulate promoRules zeroEval 1 sqrtModel 3 (promoRoot1 a b c d) =
      (promoRootN a b c d, 0) := by
  rw [show (3 : Nat) = 2 + 1 from rfl]
  norm_num [simulate, MCTSNode.is_expanded, promoRules, zeroEval, expandNode,
    promoRoot1, promoRootN, promoChild1, select_child_idx, select_aux, puct_score,
    MCTSNode.getValue, sqrtModel, create_move_mask, move_to_index, promoQ, promoR,
    promoB, promoN, promoPosLegal, List.set]

theorem promo_run_one (a b c d : ℚ) :
    run_simulations promoRules zeroEval 1 sqrtModel (1 + 2) 1 (promoRoot1 a b c d) =
      promoRootN a b c d := by
  rw [show (1 + 2 : Nat) = 3 from rfl]
  simp only [run_simulations, promo_simulate_root]

/-- C6 counterexample: on the modelled position whose only legal moves are
the four promotions g7g8 (which share the action index 3518), one search
simulation visits the queen-promotion child; writing the visit counts into
the target vector lets the three later promotions overwrite the index with
zero, the total-visits test fails, and the uniform fallback writes 1/4
four times onto the same index, so the returned policy target sums to 1/4
-- far outside the claimed 1e-6 tolerance around 1. -/
theorem C6_target_sum_counterexample :
    vsum ((MCTS.search promoRules zeroEval promoNoise sqrtModel 1 1 1 0).2.1) = 1 / 4 ∧
    ¬((1 : ℚ) - 1 / 4 ≤ 1 / 1000000) := by
  refine ⟨?_, by norm_num⟩
  have hleg : promoRules.legalMoves 0 = promoPosLegal := rfl
  simp only [MCTS.search, hleg, apply_temperature_one]
  rw [if_pos (show 0 < promoPosLegal.length by simp [promoPosLegal]),
    if_neg (show ¬promoPosLegal.length = 0 by simp [promoPosLegal])]
  obtain ⟨a, b, c, d, hroot⟩ := promo_expand_root (fun i =>
    (((promoPosLegal.zip promoNoise).foldl
      (fun p mn =>
        Function.update p (move_to_index mn.1)
          (((1 - dirichlet_epsilon) * p (move_to_index mn.1) +
            dirichlet_epsilon * mn.2) *
            create_move_mask promoPosLegal (move_to_index mn.1)))
      (zeroEval 0).1) i) /
      (vsum ((promoPosLegal.zip promoNoise).foldl
        (fun p mn =>
          Function.update p (move_to_index mn.1)
            (((1 - dirichlet_epsilon) * p (move_to_index mn.1) +
              dirichlet_epsilon * mn.2) *
              create_move_mask promoPosLegal (move_to_index mn.1)))
        (zeroEval 0).1) + 1 / 100000000))
  rw [hroot, promo_run_one]
  norm_num [promoRootN, promoChild1, promoQ, promoR, promoB, promoN, move_to_index,
    promoPosLegal, List.foldl_cons, List.foldl_nil, vsum_update, vsum_zero,
    Function.update_same, Function.update_noteq]
